import Mathlib

/-!
Shallow embedding of the core of `src/Host/FinalHost.py` (supercapacitor
measurement host): line parser, scaling pipeline, set-current command path,
auto-flip controller, rate-limited data logger, and serial reader task.

Python floats are modelled as exact rationals; every numeric literal that
appears in the source (0.1, 4.9, 1.0, 3.3, 0.01, ...) is an exact decimal,
so the rational model agrees with the source on all values we evaluate.
Character classes of the regex `\s` / `\d` are modelled over their ASCII
members, matching the byte-oriented input path of the program.
-/

namespace Supercap

/-! ## Parser: embedding of LINE_RE = `^\s*(-?\d+)\s*,\s*(-?\d+)\s*$` -/

/-- ASCII whitespace class used by the regex `\s` and by bytes.strip(). -/
def isWS (c : Char) : Bool :=
  c = ' ' || c = '\t' || c = '\n' || c = '\r' || c = '\x0b' || c = '\x0c'

/-- Numeric value of a digit character. -/
def digitVal (c : Char) : ℕ := c.toNat - '0'.toNat

/-- Value of a run of decimal digits, most significant first. -/
def natOfDigits (ds : List Char) : ℕ := ds.foldl (fun n c => n * 10 + digitVal c) 0

/-- Parse a nonempty run of digits `\d+` at the head of the input, returning
its value and the rest of the input. -/
def parseUInt (l : List Char) : Option (ℤ × List Char) :=
  let ds := l.takeWhile (fun c => c.isDigit)
  if ds.isEmpty then none
  else some ((natOfDigits ds : ℤ), l.dropWhile (fun c => c.isDigit))

/-- Parse an optionally negated integer `-?\d+` at the head of the input. -/
def parseInt (l : List Char) : Option (ℤ × List Char) :=
  match l with
  | [] => none
  | c :: rest =>
    if c = '-' then (parseUInt rest).map (fun p => (-p.1, p.2))
    else parseUInt (c :: rest)

/-- Embedding of `LINE_RE.match` followed by the two `int(...)` conversions:
accepts exactly `^\s*(-?\d+)\s*,\s*(-?\d+)\s*$` and yields the two integers.
The greedy `\d+` runs never need backtracking here because the characters
that may follow them (`\s`, `,`, end of input) are never digits. -/
def parseLine (l : List Char) : Option (ℤ × ℤ) :=
  match parseInt (l.dropWhile isWS) with
  | none => none
  | some (a, r1) =>
    match r1.dropWhile isWS with
    | ',' :: r3 =>
      match parseInt (r3.dropWhile isWS) with
      | none => none
      | some (b, r5) => if r5.dropWhile isWS = [] then some (a, b) else none
    | _ => none

/-- String-level entry point of the parser. -/
def parse (s : String) : Option (ℤ × ℤ) := parseLine s.data

/-! Specification-side decomposition language of LINE_RE, used to state that
`parseLine` accepts exactly the lines of the documented shape. -/

/-- Every character is regex whitespace. -/
def wsOnly (w : List Char) : Prop := ∀ c ∈ w, isWS c = true

/-- Every character is a decimal digit. -/
def digitsOnly (d : List Char) : Prop := ∀ c ∈ d, c.isDigit = true

/-- The token `m` is an optional-sign integer literal with value `v`. -/
def IntToken (m : List Char) (v : ℤ) : Prop :=
  ∃ d, d ≠ [] ∧ digitsOnly d ∧
    ((m = d ∧ v = (natOfDigits d : ℤ)) ∨ (m = '-' :: d ∧ v = -(natOfDigits d : ℤ)))

/-- The line `l` consists of an optional-sign integer of value `a`, a comma,
and an optional-sign integer of value `b`, with surrounding whitespace. -/
def LineShape (l : List Char) (a b : ℤ) : Prop :=
  ∃ w1 m1 w2 w3 m2 w4,
    wsOnly w1 ∧ wsOnly w2 ∧ wsOnly w3 ∧ wsOnly w4 ∧
    IntToken m1 a ∧ IntToken m2 b ∧
    l = w1 ++ m1 ++ w2 ++ ',' :: (w3 ++ m2 ++ w4)

/-! ## Scaling pipeline -/

/-- Raw current-channel count to ADC volts: `mA / 1000.0`. -/
def v_adc_from_mA (mA : ℤ) : ℚ := mA / 1000

/-- Raw voltage-channel count to ADC volts: `mV / 1000.0`. -/
def v_adc_from_mV (mV : ℤ) : ℚ := mV / 1000

/-- ADC 0 to 3.3 V mapped to 0 to 5 V: `Vadc * (5.0 / 3.3)`. -/
def scale_voltage (Vadc : ℚ) : ℚ := Vadc * (5.0 / 3.3)

/-- ADC 0 to 3.0 V mapped to -1 to +1 A: `(Vadc / 3.0) * 2.0 - 1.0`. -/
def scale_current (Vadc : ℚ) : ℚ := (Vadc / 3.0) * 2.0 - 1.0

/-! ## Set-current command path -/

/-- The clamp `max(-1.0, min(1.0, i))` used by every set-current path. -/
def clamp_unit (i : ℚ) : ℚ := max (-1) (min 1 i)

/-- Current to DAC voltage: `(clamp(i) + 1.0) * 0.5 * 3.3`. -/
def current_to_vdac (i_set : ℚ) : ℚ := (clamp_unit i_set + 1) * 0.5 * 3.3

/-- Rendering of a rational in `[0, 10)` with exactly three decimals, as
Python `f"{v:.3f}"` renders the DAC voltages (all of which lie in
`[0, 3.3]`): one integer digit, a point, three fractional digits. -/
def fmt3 (q : ℚ) : String :=
  let n : ℕ := (round (q * 1000) : ℤ).toNat
  String.mk [Nat.digitChar (n / 1000), '.',
    Nat.digitChar (n / 100 % 10), Nat.digitChar (n / 10 % 10), Nat.digitChar (n % 10)]

/-- `send_set_current`: clamp the request, update `set_i` to the clamped
value (first component) and emit `SET <vdac:.3f>\r\n` (second component). -/
def send_set_current (i_set : ℚ) : ℚ × String :=
  let s := clamp_unit i_set
  (s, "SET " ++ fmt3 (current_to_vdac s) ++ "\r\n")

/-- The operations of the program that assign the stored set-current `set_i`:
direct sends, `apply_set_current` (slider, text box), the four keyboard
shortcuts, and the auto-flip action `apply_set_current(-abs(set_i))`. -/
inductive CurOp where
  | sendSet (i : ℚ)
  | applySet (i : ℚ)
  | keyRight
  | keyLeft
  | keyUp
  | keyDown
  | autoFlip

/-- Effect of one set-current operation on the stored `set_i`. Every path
funnels through `send_set_current`, hence through `clamp_unit`. -/
def stepSetI (s : ℚ) : CurOp → ℚ
  | .sendSet i => (send_set_current i).1
  | .applySet i => (send_set_current i).1
  | .keyRight => (send_set_current (min 1 (s + 0.01))).1
  | .keyLeft => (send_set_current (max (-1) (s - 0.01))).1
  | .keyUp => (send_set_current (min 1 (s + 0.10))).1
  | .keyDown => (send_set_current (max (-1) (s - 0.10))).1
  | .autoFlip => (send_set_current (-|s|)).1

/-! ## Auto-flip controller -/

def V_FLIP_THRESH : ℚ := 4.9

def FLIP_COOLDOWN : ℚ := 1

/-- Persistent state read and written by the auto-flip check in `on_timer`:
the stored set-current and the perf_counter of the last flip (initially 0.0). -/
structure FlipState where
  set_i : ℚ
  last_flip_time : ℚ
deriving DecidableEq

/-- One evaluation of the auto-flip check for a scaled sample: `now` is the
perf_counter reading, `V` the scaled voltage. When enabled, the set current
is positive, the voltage reaches the threshold and the cooldown has elapsed,
the current is flipped via `apply_set_current(-abs(set_i))` and the flip
time recorded; otherwise the state is unchanged. -/
def auto_flip_step (enable : Bool) (st : FlipState) (now V : ℚ) : FlipState :=
  if enable = true ∧ st.set_i > 0 ∧ V ≥ V_FLIP_THRESH ∧
      now - st.last_flip_time ≥ FLIP_COOLDOWN then
    { set_i := (send_set_current (-|st.set_i|)).1, last_flip_time := now }
  else st

/-! ## Rate-limited data logger -/

def LOG_INTERVAL : ℚ := 0.1

/-- One data row of the CSV store: the sample fields written by `log_data`
(the wall-clock timestamp column is abstracted away). -/
structure Record where
  t : ℚ
  current_a : ℚ
  voltage_v : ℚ
  current_set_a : ℚ
  raw_ma : ℤ
  raw_mv : ℤ
deriving DecidableEq

/-- State of `DataLogger`: the enabled flag, whether the csv writer exists,
the perf_counter of the last accepted record (initially 0), and the data
rows appended so far. -/
structure LoggerState where
  logging_enabled : Bool
  writer_open : Bool
  last_log_time : ℚ
  rows : List Record
deriving DecidableEq

/-- Construction of `DataLogger` with `ENABLE_LOGGING = True`: `open_ok`
tells whether opening the csv file succeeded. On failure the enabled flag is
cleared and the writer stays absent; there is no reopen operation. -/
def mkLogger (open_ok : Bool) : LoggerState :=
  if open_ok then ⟨true, true, 0, []⟩ else ⟨false, false, 0, []⟩

/-- `DataLogger.log_data` at perf_counter `now`: bail out when disabled or
the writer is absent; drop the sample inside the rate-limit interval;
otherwise advance `last_log_time` first and then attempt the row write,
which appends a row exactly when it does not raise (`write_ok`). -/
def log_data (st : LoggerState) (now : ℚ) (r : Record) (write_ok : Bool) : LoggerState :=
  if st.logging_enabled = false ∨ st.writer_open = false then st
  else if now - st.last_log_time < LOG_INTERVAL then st
  else
    let st1 := { st with last_log_time := now }
    if write_ok then { st1 with rows := st1.rows ++ [r] } else st1

/-- Run a sequence of `log_data` calls, each a triple of perf_counter time,
record, and whether the underlying row write succeeds. -/
def runLog (st : LoggerState) (calls : List (ℚ × Record × Bool)) : LoggerState :=
  calls.foldl (fun s c => log_data s c.1 c.2.1 c.2.2) st

/-- A record carrying only a relative time, as fed in the logger scenarios. -/
def recAt (t : ℚ) : Record := ⟨t, 0, 0, 0, 0, 0⟩

/-! ## Serial reader task -/

/-- One iteration of the reader loop as observed from outside: either the
stop event is seen at the top of the loop, or `ser.read` returns a chunk of
bytes, or `ser.read` raises. -/
inductive RdEvent where
  | chunk (data : List Char)
  | readErr
  | stop

/-- A value pushed on the queue: a sample `(relative_time, mA, mV)` or the
termination marker `None`. -/
inductive OutMsg where
  | sample (t : ℚ) (mA mV : ℤ)
  | marker
deriving DecidableEq

/-- Whether a queue value is the termination marker. -/
def isMarker : OutMsg → Bool
  | .marker => true
  | .sample _ _ _ => false

/-- Python `raw.strip()` on the framed line followed by `rstrip("\r")`:
drop ASCII whitespace at both ends, then any remaining trailing `\r`. -/
def pyStrip (l : List Char) : List Char :=
  let s := ((l.dropWhile isWS).reverse.dropWhile isWS).reverse
  (s.reverse.dropWhile (fun c => c = '\r')).reverse

/-- Process the complete lines split off the byte accumulator. The state is
the lazily initialized time origin `t0` and the index of the next
perf_counter reading; `clock k` is the value returned by the k-th call to
`time.perf_counter()` made for a successfully parsed line. Each parsed line
yields a sample `(t - t0, mA, mV)`. -/
def procLines (clock : ℕ → ℚ) : Option ℚ × ℕ → List (List Char) → (Option ℚ × ℕ) × List (ℚ × ℤ × ℤ)
  | st, [] => (st, [])
  | (t0, k), line :: rest =>
    match parseLine (pyStrip line) with
    | none => procLines clock (t0, k) rest
    | some (mA, mV) =>
      let t := clock k
      let c := t0.getD t
      let res := procLines clock (some c, k + 1) rest
      (res.1, (t - c, mA, mV) :: res.2)

/-- State of the reader loop between iterations: the byte accumulator, the
time origin, and the perf_counter index. -/
structure RdState where
  buf : List Char
  t0 : Option ℚ
  k : ℕ

/-- The reader loop of `serial_reader`, driven by a finite trace of read
events: a stop event or a read error ends the loop (as does the end of the
trace), after which the termination marker is pushed exactly once; a chunk
is appended to the accumulator, complete lines are split off at `\n`,
stripped, parsed, timestamped and pushed as samples. -/
def serial_reader (clock : ℕ → ℚ) : RdState → List RdEvent → List OutMsg
  | _, [] => [.marker]
  | _, .stop :: _ => [.marker]
  | _, .readErr :: _ => [.marker]
  | st, .chunk data :: rest =>
    let buf := st.buf ++ data
    let segs := buf.splitOn '\n'
    let res := procLines clock (st.t0, st.k) segs.dropLast
    (res.2.map (fun s => OutMsg.sample s.1 s.2.1 s.2.2)) ++
      serial_reader clock ⟨segs.getLastD [], res.1.1, res.1.2⟩ rest

/-- The relative times of the samples in a queue trace, in order. -/
def sampleTimes (msgs : List OutMsg) : List ℚ :=
  msgs.filterMap (fun m => match m with
    | .sample t _ _ => some t
    | .marker => none)

/-- The initial reader state: empty accumulator, origin not yet set. -/
def rdInit : RdState := ⟨[], none, 0⟩

/-! ## Helper lemmas -/

lemma clamp_unit_mem (i : ℚ) : -1 ≤ clamp_unit i ∧ clamp_unit i ≤ 1 := by
  unfold clamp_unit
  constructor
  · exact le_max_left _ _
  · exact max_le (by norm_num) (min_le_left _ _)

lemma clamp_unit_idem (i : ℚ) : clamp_unit (clamp_unit i) = clamp_unit i := by
  obtain ⟨h1, h2⟩ := clamp_unit_mem i
  show max (-1) (min 1 (clamp_unit i)) = clamp_unit i
  rw [min_eq_right h2, max_eq_right h1]

lemma stepSetI_mem (s : ℚ) (op : CurOp) : -1 ≤ stepSetI s op ∧ stepSetI s op ≤ 1 := by
  cases op <;> exact clamp_unit_mem _

lemma fmt3_of_round (q : ℚ) (n : ℕ) (h : round (q * 1000) = (n : ℤ)) :
    fmt3 q = String.mk [Nat.digitChar (n / 1000), '.',
      Nat.digitChar (n / 100 % 10), Nat.digitChar (n / 10 % 10), Nat.digitChar (n % 10)] := by
  unfold fmt3
  rw [h]
  simp

lemma log_data_disabled (st : LoggerState) (now : ℚ) (r : Record) (ok : Bool)
    (h : st.logging_enabled = false) : log_data st now r ok = st := by
  unfold log_data
  rw [if_pos (Or.inl h)]

lemma runLog_disabled (calls : List (ℚ × Record × Bool)) (st : LoggerState)
    (h : st.logging_enabled = false) : runLog st calls = st := by
  induction calls generalizing st with
  | nil => rfl
  | cons c cs ih =>
    simp only [runLog, List.foldl_cons]
    rw [log_data_disabled st c.1 c.2.1 c.2.2 h]
    exact ih st h

/-! ## Claim theorems -/

/-- C1: for every sequence of operations that mutate the commanded
set-current (direct sends, apply with any argument, the keyboard shortcut
increments and decrements, the auto-flip action), the stored `set_i`,
starting from its initial value 0.000, lies in the closed interval
`[-1, 1]` afterwards. -/
theorem C1_set_current_clamped (ops : List CurOp) :
    -1 ≤ List.foldl stepSetI 0 ops ∧ List.foldl stepSetI 0 ops ≤ 1 := by
  suffices h : ∀ s : ℚ, -1 ≤ s ∧ s ≤ 1 →
      -1 ≤ List.foldl stepSetI s ops ∧ List.foldl stepSetI s ops ≤ 1 by
    exact h 0 (by norm_num)
  induction ops with
  | nil => intro s hs; simpa using hs
  | cons op rest ih =>
    intro s _
    simpa using ih (stepSetI s op) (stepSetI_mem s op)

/-- C4: `send_set_current` clamps its input to `[-1, 1]`, writes the
command `SET ` followed by the DAC voltage `(clamp(i) + 1) * 0.5 * 3.3`
formatted to three decimals and terminated by CR LF, and returns the
clamped value; input 2.5 applies 1.0, input -5 applies -1.0, and inputs
-1, 0, 1 map to the DAC voltages 0.000, 1.650, 3.300. -/
theorem C4_send_set_current (i : ℚ) :
    (send_set_current i).1 = clamp_unit i ∧
    -1 ≤ (send_set_current i).1 ∧ (send_set_current i).1 ≤ 1 ∧
    (send_set_current i).2 = "SET " ++ fmt3 ((clamp_unit i + 1) * 0.5 * 3.3) ++ "\r\n" ∧
    (send_set_current 2.5).1 = 1 ∧
    (send_set_current (-5)).1 = -1 ∧
    (send_set_current (-1)).2 = "SET 0.000\r\n" ∧
    (send_set_current 0).2 = "SET 1.650\r\n" ∧
    (send_set_current 1).2 = "SET 3.300\r\n" := by
  have hgen : ∀ j : ℚ, (send_set_current j).2 =
      "SET " ++ fmt3 ((clamp_unit j + 1) * 0.5 * 3.3) ++ "\r\n" := by
    intro j
    show "SET " ++ fmt3 (current_to_vdac (clamp_unit j)) ++ "\r\n" = _
    rw [current_to_vdac, clamp_unit_idem]
  refine ⟨rfl, (clamp_unit_mem i).1, (clamp_unit_mem i).2, hgen i, ?_, ?_, ?_, ?_, ?_⟩
  · norm_num [send_set_current, clamp_unit]
  · norm_num [send_set_current, clamp_unit]
  · rw [hgen (-1)]
    have hc : clamp_unit (-1 : ℚ) = -1 := by norm_num [clamp_unit]
    rw [hc, fmt3_of_round _ 0 (by rw [round_eq]; norm_num)]
    rfl
  · rw [hgen 0]
    have hc : clamp_unit (0 : ℚ) = 0 := by norm_num [clamp_unit]
    rw [hc, fmt3_of_round _ 1650 (by rw [round_eq]; norm_num)]
    rfl
  · rw [hgen 1]
    have hc : clamp_unit (1 : ℚ) = 1 := by norm_num [clamp_unit]
    rw [hc, fmt3_of_round _ 3300 (by rw [round_eq]; norm_num)]
    rfl

/-- Witness for C4 at the concrete input 0.7. -/
theorem C4_witness : (send_set_current 0.7).1 = clamp_unit 0.7 ∧
    -1 ≤ (send_set_current 0.7).1 ∧ (send_set_current 0.7).1 ≤ 1 ∧
    (send_set_current 0.7).2 = "SET " ++ fmt3 ((clamp_unit 0.7 + 1) * 0.5 * 3.3) ++ "\r\n" ∧
    (send_set_current 2.5).1 = 1 ∧
    (send_set_current (-5)).1 = -1 ∧
    (send_set_current (-1)).2 = "SET 0.000\r\n" ∧
    (send_set_current 0).2 = "SET 1.650\r\n" ∧
    (send_set_current 1).2 = "SET 3.300\r\n" :=
  C4_send_set_current 0.7

/-- Witness for C1 on a concrete operation sequence. -/
theorem C1_witness :
    -1 ≤ List.foldl stepSetI 0 [CurOp.sendSet 5, CurOp.keyUp, CurOp.autoFlip] ∧
    List.foldl stepSetI 0 [CurOp.sendSet 5, CurOp.keyUp, CurOp.autoFlip] ≤ 1 :=
  C1_set_current_clamped [CurOp.sendSet 5, CurOp.keyUp, CurOp.autoFlip]

/-- C6: the composition of the raw-count conversion and the current
scaling, `scale_current (v_adc_from_mA x)`, is strictly increasing in the
raw integer count. -/
theorem C6_scale_mono (x1 x2 : ℤ) (h : x1 < x2) :
    scale_current (v_adc_from_mA x1) < scale_current (v_adc_from_mA x2) := by
  unfold scale_current v_adc_from_mA
  have hx : (x1 : ℚ) < (x2 : ℚ) := by exact_mod_cast h
  linarith

/-- Witness for C6 at raw counts 0 and 1. -/
theorem C6_witness : (0 : ℤ) < 1 ∧
    scale_current (v_adc_from_mA 0) < scale_current (v_adc_from_mA 1) :=
  ⟨by norm_num, C6_scale_mono 0 1 (by norm_num)⟩

/-- C8: if opening the log store at construction fails, the logger is
permanently disabled: after any sequence of `log_data` calls the enabled
flag is still false, the writer is still absent, and no row was written. -/
theorem C8_open_fail_permanent (calls : List (ℚ × Record × Bool)) :
    (runLog (mkLogger false) calls).logging_enabled = false ∧
    (runLog (mkLogger false) calls).writer_open = false ∧
    (runLog (mkLogger false) calls).rows = [] := by
  rw [runLog_disabled calls (mkLogger false) (by simp [mkLogger])]
  simp [mkLogger]

/-- Witness for C8 on a concrete call sequence. -/
theorem C8_witness :
    (runLog (mkLogger false) [(1, recAt 1, true), (2, recAt 2, true)]).logging_enabled = false ∧
    (runLog (mkLogger false) [(1, recAt 1, true), (2, recAt 2, true)]).writer_open = false ∧
    (runLog (mkLogger false) [(1, recAt 1, true), (2, recAt 2, true)]).rows = [] :=
  C8_open_fail_permanent [(1, recAt 1, true), (2, recAt 2, true)]

/-- C10: if the row write raises after a successful open and outside the
rate-limit interval, logging stays enabled, no row is appended, and
`last_log_time` was advanced before the attempt, so any sample within one
interval of the failed attempt is dropped. -/
theorem C10_write_fail_keeps_enabled (st : LoggerState) (now : ℚ) (r : Record)
    (hen : st.logging_enabled = true) (hw : st.writer_open = true)
    (hdue : ¬ now - st.last_log_time < LOG_INTERVAL) :
    (log_data st now r false).logging_enabled = true ∧
    (log_data st now r false).writer_open = true ∧
    (log_data st now r false).rows = st.rows ∧
    (log_data st now r false).last_log_time = now ∧
    ∀ now2 : ℚ, ∀ r2 : Record, ∀ ok2 : Bool, now2 - now < LOG_INTERVAL →
      log_data (log_data st now r false) now2 r2 ok2 = log_data st now r false := by
  have h1 : log_data st now r false = { st with last_log_time := now } := by
    unfold log_data
    rw [if_neg (by simp [hen, hw]), if_neg hdue, if_neg (by simp)]
  rw [h1]
  refine ⟨hen, hw, rfl, rfl, ?_⟩
  intro now2 r2 ok2 h2
  unfold log_data
  rw [if_neg (by simp [hen, hw])]
  rw [if_pos (by simpa using h2)]

/-- Witness for C10 on a concrete state: a failed write at time 0.2
consumes the slot and a sample at 0.25 is dropped. -/
theorem C10_witness :
    (log_data (mkLogger true) 0.2 (recAt 0.2) false).logging_enabled = true ∧
    (log_data (mkLogger true) 0.2 (recAt 0.2) false).writer_open = true ∧
    (log_data (mkLogger true) 0.2 (recAt 0.2) false).rows = (mkLogger true).rows ∧
    (log_data (mkLogger true) 0.2 (recAt 0.2) false).last_log_time = 0.2 ∧
    ∀ now2 : ℚ, ∀ r2 : Record, ∀ ok2 : Bool, now2 - 0.2 < LOG_INTERVAL →
      log_data (log_data (mkLogger true) 0.2 (recAt 0.2) false) now2 r2 ok2 =
        log_data (mkLogger true) 0.2 (recAt 0.2) false :=
  C10_write_fail_keeps_enabled (mkLogger true) 0.2 (recAt 0.2)
    (by simp [mkLogger]) (by simp [mkLogger]) (by norm_num [mkLogger, LOG_INTERVAL])

/-- C2 counterexample: `last_flip_time` is initialized to 0.0, so from the
initial state with `set_i = 0.8` a sample at perf_counter 0 with V = 5.0
does NOT flip (elapsed 0 is below the 1.0 s cooldown), contradicting the
claimed first flip at t = 0. -/
theorem C2_cex :
    auto_flip_step true ⟨0.8, 0⟩ 0 5 = ⟨0.8, 0⟩ ∧ (0.8 : ℚ) ≠ -0.8 := by
  constructor
  · norm_num [auto_flip_step, V_FLIP_THRESH, FLIP_COOLDOWN]
  · norm_num

/-- C2 amended: the controller flips to `-|set_i|` and records the flip
time exactly when enabled, `set_i > 0`, `V ≥ 4.9` and at least 1.0 s has
elapsed since `last_flip_time`; since `last_flip_time` starts at 0, from
`set_i = 0.8` a sample at t = 0 with V = 5.0 triggers nothing, a sample at
t = 0.5 triggers nothing, and a sample at t = 1.2 with the current still at
+0.8 triggers the first flip to -0.8 with the flip time set to 1.2. -/
theorem C2_auto_flip_amended (enable : Bool) (st : FlipState) (now V : ℚ) :
    ((enable = true ∧ st.set_i > 0 ∧ V ≥ V_FLIP_THRESH ∧
        now - st.last_flip_time ≥ FLIP_COOLDOWN) →
      auto_flip_step enable st now V =
        ⟨(send_set_current (-|st.set_i|)).1, now⟩) ∧
    (¬(enable = true ∧ st.set_i > 0 ∧ V ≥ V_FLIP_THRESH ∧
        now - st.last_flip_time ≥ FLIP_COOLDOWN) →
      auto_flip_step enable st now V = st) ∧
    auto_flip_step true ⟨0.8, 0⟩ 0 5 = ⟨0.8, 0⟩ ∧
    auto_flip_step true ⟨0.8, 0⟩ 0.5 5 = ⟨0.8, 0⟩ ∧
    auto_flip_step true ⟨0.8, 0⟩ 1.2 5 = ⟨-0.8, 1.2⟩ := by
  refine ⟨?_, ?_, ?_, ?_, ?_⟩
  · intro h
    unfold auto_flip_step
    rw [if_pos h]
  · intro h
    unfold auto_flip_step
    rw [if_neg h]
  · norm_num [auto_flip_step, V_FLIP_THRESH, FLIP_COOLDOWN]
  · norm_num [auto_flip_step, V_FLIP_THRESH, FLIP_COOLDOWN]
  · norm_num [auto_flip_step, V_FLIP_THRESH, FLIP_COOLDOWN, send_set_current,
      clamp_unit, abs_of_pos, max_def, min_def]

/-- Witness for C2 on a concrete flip at t = 2. -/
theorem C2_witness :
    auto_flip_step true ⟨0.8, 0⟩ 2 5 = ⟨(send_set_current (-|(0.8 : ℚ)|)).1, 2⟩ :=
  (C2_auto_flip_amended true ⟨0.8, 0⟩ 2 5).1
    (by norm_num [V_FLIP_THRESH, FLIP_COOLDOWN])

/-- The logger rate-limit scenario of the claim: samples fed at
perf_counter times 0, 0.05, 0.12, 0.15, 0.25 with all writes succeeding. -/
def c3calls : List (ℚ × Record × Bool) :=
  [(0, recAt 0, true), (0.05, recAt 0.05, true), (0.12, recAt 0.12, true),
    (0.15, recAt 0.15, true), (0.25, recAt 0.25, true)]

/-- C3 counterexample: with `last_log_time` initialized to 0, the sample at
wall time 0 is dropped (0 - 0 = 0 is below the 0.1 s interval), so the
scenario logs the records at 0.12 and 0.25 only, not the claimed three. -/
theorem C3_cex :
    (runLog (mkLogger true) c3calls).rows.map Record.t = [0.12, 0.25] ∧
    ([0.12, 0.25] : List ℚ) ≠ [0, 0.12, 0.25] := by
  constructor
  · norm_num [c3calls, runLog, log_data, mkLogger, LOG_INTERVAL, recAt]
  · intro h
    have := List.head_eq_of_cons_eq h
    norm_num at this

/-- C3 amended: feeding samples at clock times 0, 0.05, 0.12, 0.15, 0.25 to
`log_data` with interval 0.1 s and `last_log_time` starting at 0 writes
exactly the records for the samples at times 0.12 and 0.25; the sample at
time 0 is dropped because 0 - 0 is below the interval, and the dropped
samples produce no store rows. -/
theorem C3_logger_scenario_amended :
    (runLog (mkLogger true) c3calls).rows = [recAt 0.12, recAt 0.25] := by
  norm_num [c3calls, runLog, log_data, mkLogger, LOG_INTERVAL]

/-- C7: for every clock, every starting loop state (hence in particular the
initial one) and every finite trace of read events, the reader task pushes
the termination marker exactly once, as the last queue entry, whether the
loop ends because the stop signal was observed, because a transport read
raised, or because the trace ran out; malformed lines inside chunks never
produce a marker or end the loop early. -/
theorem C7_reader_marker (clock : ℕ → ℚ) (st : RdState) (evs : List RdEvent) :
    (serial_reader clock st evs).countP isMarker = 1 ∧
    (serial_reader clock st evs).getLast? = some OutMsg.marker := by
  induction evs generalizing st with
  | nil => exact ⟨rfl, rfl⟩
  | cons ev rest ih =>
    cases ev with
    | stop => exact ⟨rfl, rfl⟩
    | readErr => exact ⟨rfl, rfl⟩
    | chunk data =>
      obtain ⟨ih1, ih2⟩ := ih ⟨((st.buf ++ data).splitOn '\n').getLastD [],
        (procLines clock (st.t0, st.k) ((st.buf ++ data).splitOn '\n').dropLast).1.1,
        (procLines clock (st.t0, st.k) ((st.buf ++ data).splitOn '\n').dropLast).1.2⟩
      simp only [serial_reader]
      constructor
      · rw [List.countP_append, ih1]
        have hz : ∀ samples : List (ℚ × ℤ × ℤ),
            (samples.map (fun s => OutMsg.sample s.1 s.2.1 s.2.2)).countP isMarker = 0 := by
          intro samples
          rw [List.countP_eq_zero]
          intro a ha
          obtain ⟨s, _, hs⟩ := List.mem_map.mp ha
          rw [← hs]
          simp [isMarker]
        rw [hz]
      · rw [List.getLast?_append, ih2]
        rfl

/-- The times produced by `procLines` from a set origin `c` and clock index
`k` are `clock (k + j) - c` for consecutive `j`, and the state advances the
index by the number of parsed lines while keeping the origin. -/
lemma procLines_some (clock : ℕ → ℚ) (lines : List (List Char)) :
    ∀ c : ℚ, ∀ k : ℕ, ∃ m : ℕ,
      (procLines clock (some c, k) lines).1 = (some c, k + m) ∧
      (procLines clock (some c, k) lines).2.map Prod.fst =
        (List.range m).map (fun j => clock (k + j) - c) := by
  induction lines with
  | nil =>
    intro c k
    exact ⟨0, by simp [procLines], by simp [procLines]⟩
  | cons line rest ih =>
    intro c k
    cases hp : parseLine (pyStrip line) with
    | none =>
      obtain ⟨m, h1, h2⟩ := ih c k
      exact ⟨m, by simp only [procLines, hp]; exact h1, by simp only [procLines, hp]; exact h2⟩
    | some ab =>
      obtain ⟨mA, mV⟩ := ab
      obtain ⟨m, h1, h2⟩ := ih c (k + 1)
      refine ⟨m + 1, ?_, ?_⟩
      · simp only [procLines, hp, Option.getD_some]
        rw [h1]
        have e : k + 1 + m = k + (m + 1) := by omega
        rw [e]
      · simp only [procLines, hp, Option.getD_some, List.map_cons]
        rw [h2, List.range_succ_eq_map, List.map_cons, List.map_map]
        congr 1
        apply List.map_congr_left
        intro j _
        simp only [Function.comp_apply, Nat.succ_eq_add_one]
        have e : k + 1 + j = k + (j + 1) := by omega
        rw [e]

/-- From an unset origin, `procLines` either parses nothing and leaves the
state alone, or sets the origin to the clock value at the first parse, so
that the produced times are `clock (k + j) - clock k`. -/
lemma procLines_none (clock : ℕ → ℚ) (lines : List (List Char)) :
    ∀ k : ℕ, ∃ m : ℕ,
      (procLines clock (none, k) lines).2.map Prod.fst =
        (List.range m).map (fun j => clock (k + j) - clock k) ∧
      (((procLines clock (none, k) lines).1 = (none, k) ∧ m = 0) ∨
        (procLines clock (none, k) lines).1 = (some (clock k), k + m)) := by
  induction lines with
  | nil =>
    intro k
    exact ⟨0, by simp [procLines], Or.inl ⟨by simp [procLines], rfl⟩⟩
  | cons line rest ih =>
    intro k
    cases hp : parseLine (pyStrip line) with
    | none =>
      obtain ⟨m, h1, h2⟩ := ih k
      exact ⟨m, by simp only [procLines, hp]; exact h1,
        by simp only [procLines, hp]; exact h2⟩
    | some ab =>
      obtain ⟨mA, mV⟩ := ab
      obtain ⟨m, h1, h2⟩ := procLines_some clock rest (clock k) (k + 1)
      refine ⟨m + 1, ?_, Or.inr ?_⟩
      · simp only [procLines, hp, Option.getD_none, List.map_cons]
        rw [h2, List.range_succ_eq_map, List.map_cons, List.map_map]
        congr 1
        apply List.map_congr_left
        intro j _
        simp only [Function.comp_apply, Nat.succ_eq_add_one]
        have e : k + 1 + j = k + (j + 1) := by omega
        rw [e]
      · simp only [procLines, hp, Option.getD_none]
        rw [h1]
        have e : k + 1 + m = k + (m + 1) := by omega
        rw [e]

lemma sampleTimes_append (l1 l2 : List OutMsg) :
    sampleTimes (l1 ++ l2) = sampleTimes l1 ++ sampleTimes l2 :=
  List.filterMap_append l1 l2 _

lemma sampleTimes_map_sample (samples : List (ℚ × ℤ × ℤ)) :
    sampleTimes (samples.map (fun s => OutMsg.sample s.1 s.2.1 s.2.2)) =
      samples.map Prod.fst := by
  induction samples with
  | nil => rfl
  | cons s rest ih =>
    simp only [List.map_cons, sampleTimes, List.filterMap_cons] at ih ⊢
    rw [ih]

/-- The sample times a reader run emits from a set origin `c` are
`clock (k + j) - c` for consecutive clock indices `j`. -/
lemma reader_times_some (clock : ℕ → ℚ) (evs : List RdEvent) :
    ∀ buf : List Char, ∀ c : ℚ, ∀ k : ℕ, ∃ m : ℕ,
      sampleTimes (serial_reader clock ⟨buf, some c, k⟩ evs) =
        (List.range m).map (fun j => clock (k + j) - c) := by
  induction evs with
  | nil =>
    intro buf c k
    exact ⟨0, by simp [serial_reader, sampleTimes]⟩
  | cons ev rest ih =>
    intro buf c k
    cases ev with
    | stop => exact ⟨0, by simp [serial_reader, sampleTimes]⟩
    | readErr => exact ⟨0, by simp [serial_reader, sampleTimes]⟩
    | chunk data =>
      obtain ⟨m1, h1, h2⟩ :=
        procLines_some clock (((buf ++ data).splitOn '\n').dropLast) c k
      have h1a : (procLines clock (some c, k)
          (((buf ++ data).splitOn '\n').dropLast)).1.1 = some c := by rw [h1]
      have h1b : (procLines clock (some c, k)
          (((buf ++ data).splitOn '\n').dropLast)).1.2 = k + m1 := by rw [h1]
      obtain ⟨m2, h3⟩ := ih (((buf ++ data).splitOn '\n').getLastD []) c (k + m1)
      refine ⟨m1 + m2, ?_⟩
      simp only [serial_reader]
      rw [sampleTimes_append, sampleTimes_map_sample, h2, h1a, h1b, h3]
      rw [List.range_add, List.map_append, List.map_map]
      congr 1
      apply List.map_congr_left
      intro j _
      simp only [Function.comp_apply]
      have e : k + (m1 + j) = k + m1 + j := by omega
      rw [e]

/-- The sample times of a full reader run from an unset origin are
`clock (k + j) - clock k`: zero for the first sample, then clock deltas. -/
lemma reader_times_none (clock : ℕ → ℚ) (evs : List RdEvent) :
    ∀ buf : List Char, ∀ k : ℕ, ∃ m : ℕ,
      sampleTimes (serial_reader clock ⟨buf, none, k⟩ evs) =
        (List.range m).map (fun j => clock (k + j) - clock k) := by
  induction evs with
  | nil =>
    intro buf k
    exact ⟨0, by simp [serial_reader, sampleTimes]⟩
  | cons ev rest ih =>
    intro buf k
    cases ev with
    | stop => exact ⟨0, by simp [serial_reader, sampleTimes]⟩
    | readErr => exact ⟨0, by simp [serial_reader, sampleTimes]⟩
    | chunk data =>
      obtain ⟨m1, h2, hst⟩ :=
        procLines_none clock (((buf ++ data).splitOn '\n').dropLast) k
      cases hst with
      | inl h1 =>
        obtain ⟨h1s, h1m⟩ := h1
        have h1a : (procLines clock (none, k)
            (((buf ++ data).splitOn '\n').dropLast)).1.1 = none := by rw [h1s]
        have h1b : (procLines clock (none, k)
            (((buf ++ data).splitOn '\n').dropLast)).1.2 = k := by rw [h1s]
        obtain ⟨m2, h3⟩ := ih (((buf ++ data).splitOn '\n').getLastD []) k
        refine ⟨m2, ?_⟩
        simp only [serial_reader]
        rw [sampleTimes_append, sampleTimes_map_sample, h2, h1a, h1b, h3, h1m]
        rfl
      | inr h1 =>
        have h1a : (procLines clock (none, k)
            (((buf ++ data).splitOn '\n').dropLast)).1.1 = some (clock k) := by rw [h1]
        have h1b : (procLines clock (none, k)
            (((buf ++ data).splitOn '\n').dropLast)).1.2 = k + m1 := by rw [h1]
        obtain ⟨m2, h3⟩ := reader_times_some clock rest
          (((buf ++ data).splitOn '\n').getLastD []) (clock k) (k + m1)
        refine ⟨m1 + m2, ?_⟩
        simp only [serial_reader]
        rw [sampleTimes_append, sampleTimes_map_sample, h2, h1a, h1b, h3]
        rw [List.range_add, List.map_append, List.map_map]
        congr 1
        apply List.map_congr_left
        intro j _
        simp only [Function.comp_apply]
        have e : k + (m1 + j) = k + m1 + j := by omega
        rw [e]

/-- C9: under a monotone clock, the relative time of the first produced
sample of a reader run from the initial state is exactly zero (the origin
is initialized lazily at the first successful parse), and the relative
times are non-decreasing across all produced samples. -/
theorem C9_relative_time (clock : ℕ → ℚ) (evs : List RdEvent)
    (hmono : ∀ i j : ℕ, i ≤ j → clock i ≤ clock j) :
    (sampleTimes (serial_reader clock rdInit evs) = [] ∨
      (sampleTimes (serial_reader clock rdInit evs)).head? = some 0) ∧
    List.Chain' (· ≤ ·) (sampleTimes (serial_reader clock rdInit evs)) := by
  obtain ⟨m, h⟩ := reader_times_none clock evs [] 0
  have hr : serial_reader clock rdInit evs =
      serial_reader clock ⟨[], none, 0⟩ evs := rfl
  rw [hr, h]
  constructor
  · cases m with
    | zero => exact Or.inl rfl
    | succ m2 =>
      right
      rw [List.range_succ_eq_map, List.map_cons, List.head?_cons]
      simp
  · apply List.Pairwise.chain'
    refine List.Pairwise.map _ ?_ (List.pairwise_lt_range m)
    intro a b hab
    have hc : clock (0 + a) ≤ clock (0 + b) := hmono _ _ (by omega)
    linarith

/-- Witness for C9: the identity clock over a chunk holding two lines gives
sample times starting at zero and non-decreasing. -/
theorem C9_witness :
    (sampleTimes (serial_reader (fun n => (n : ℚ)) rdInit
        [RdEvent.chunk ("1,2\n3,4\n".data)]) = [] ∨
      (sampleTimes (serial_reader (fun n => (n : ℚ)) rdInit
        [RdEvent.chunk ("1,2\n3,4\n".data)])).head? = some 0) ∧
    List.Chain' (· ≤ ·) (sampleTimes (serial_reader (fun n => (n : ℚ)) rdInit
        [RdEvent.chunk ("1,2\n3,4\n".data)])) :=
  C9_relative_time (fun n => (n : ℚ)) [RdEvent.chunk ("1,2\n3,4\n".data)]
    (fun i j hij => by show (i : ℚ) ≤ (j : ℚ); exact_mod_cast hij)

/-- Witness for C7: a trace with a malformed line and then a read error
yields exactly one trailing marker. -/
theorem C7_witness :
    (serial_reader (fun _ => 0) rdInit
      [RdEvent.chunk ("junk\n".data), RdEvent.readErr]).countP isMarker = 1 ∧
    (serial_reader (fun _ => 0) rdInit
      [RdEvent.chunk ("junk\n".data), RdEvent.readErr]).getLast? = some OutMsg.marker :=
  C7_reader_marker (fun _ => 0) rdInit [RdEvent.chunk ("junk\n".data), RdEvent.readErr]

/-! ## Parser characterization lemmas -/

lemma ws_not_digit {c : Char} (h : isWS c = true) : c.isDigit = false := by
  simp only [isWS, Bool.or_eq_true, decide_eq_true_eq] at h
  rcases h with ((((h | h) | h) | h) | h) | h <;> subst h <;> decide

lemma digit_ne_dash {c : Char} (h : c.isDigit = true) : ¬(c = '-') := by
  intro e
  subst e
  exact absurd h (by decide)

lemma digit_not_ws {c : Char} (h : c.isDigit = true) : isWS c = false := by
  cases hw : isWS c with
  | false => rfl
  | true => rw [ws_not_digit hw] at h; exact absurd h (by decide)

/-- The head of the list, if any, is not a digit. -/
def headNotDigit (l : List Char) : Prop :=
  ∀ c : Char, l.head? = some c → c.isDigit = false

lemma takeWhile_digit_nil (l : List Char) (h : headNotDigit l) :
    l.takeWhile (fun c => c.isDigit) = [] ∧ l.dropWhile (fun c => c.isDigit) = l := by
  cases l with
  | nil => exact ⟨rfl, rfl⟩
  | cons c rest =>
    have hc := h c rfl
    constructor <;> simp [List.takeWhile_cons, List.dropWhile_cons, hc]

lemma headNotDigit_ws_comma (w : List Char) (hw : wsOnly w) (l : List Char) :
    headNotDigit (w ++ ',' :: l) := by
  intro c hc
  cases w with
  | nil =>
    simp only [List.nil_append, List.head?_cons, Option.some.injEq] at hc
    subst hc
    rfl
  | cons x w2 =>
    simp only [List.cons_append, List.head?_cons, Option.some.injEq] at hc
    subst hc
    exact ws_not_digit (hw _ (List.mem_cons_self _ _))

lemma headNotDigit_of_ws (w : List Char) (hw : wsOnly w) : headNotDigit w := by
  intro c hc
  cases w with
  | nil => simp at hc
  | cons x w2 =>
    simp only [List.head?_cons, Option.some.injEq] at hc
    subst hc
    exact ws_not_digit (hw _ (List.mem_cons_self _ _))

lemma dropWhile_ws_append (w l : List Char) (hw : wsOnly w) :
    (w ++ l).dropWhile isWS = l.dropWhile isWS := by
  induction w with
  | nil => rfl
  | cons a w2 ih =>
    have ha : isWS a = true := hw a (by simp)
    simp only [List.cons_append, List.dropWhile_cons, ha, if_true]
    exact ih (fun c hc => hw c (List.mem_cons_of_mem _ hc))

lemma dropWhile_isWS_cons_of (c : Char) (l : List Char) (hc : isWS c = false) :
    (c :: l).dropWhile isWS = c :: l := by
  simp [List.dropWhile_cons, hc]

lemma takeWhile_digits_append (d r : List Char) (hd : digitsOnly d) :
    (d ++ r).takeWhile (fun c => c.isDigit) = d ++ r.takeWhile (fun c => c.isDigit) ∧
    (d ++ r).dropWhile (fun c => c.isDigit) = r.dropWhile (fun c => c.isDigit) := by
  induction d with
  | nil => exact ⟨rfl, rfl⟩
  | cons a d2 ih =>
    have ha : a.isDigit = true := hd a (by simp)
    obtain ⟨iht, ihd⟩ := ih (fun c hc => hd c (List.mem_cons_of_mem _ hc))
    constructor <;>
      simp [List.cons_append, List.takeWhile_cons, List.dropWhile_cons, ha, iht, ihd]

lemma parseUInt_append (d r : List Char) (hd : digitsOnly d) (hne : d ≠ [])
    (hr : headNotDigit r) : parseUInt (d ++ r) = some ((natOfDigits d : ℤ), r) := by
  obtain ⟨ht, hdrop⟩ := takeWhile_digits_append d r hd
  obtain ⟨hrt, hrd⟩ := takeWhile_digit_nil r hr
  simp only [parseUInt]
  rw [ht, hrt, List.append_nil, hdrop, hrd]
  rw [if_neg (by simpa using hne)]

lemma parseInt_token (m : List Char) (v : ℤ) (r : List Char) (ht : IntToken m v)
    (hr : headNotDigit r) : parseInt (m ++ r) = some (v, r) := by
  obtain ⟨d, hne, hd, hcase⟩ := ht
  rcases hcase with ⟨hm, hv⟩ | ⟨hm, hv⟩
  · rw [hm, hv]
    cases d with
    | nil => exact absurd rfl hne
    | cons c d2 =>
      have hcd : c.isDigit = true := hd c (by simp)
      simp only [List.cons_append, parseInt]
      rw [if_neg (digit_ne_dash hcd)]
      exact parseUInt_append (c :: d2) r hd hne hr
  · rw [hm, hv]
    simp [List.cons_append, parseInt, parseUInt_append d r hd hne hr]

lemma parseUInt_inv (l : List Char) (v : ℤ) (r : List Char)
    (h : parseUInt l = some (v, r)) :
    ∃ d, d ≠ [] ∧ digitsOnly d ∧ l = d ++ r ∧ v = (natOfDigits d : ℤ) := by
  simp only [parseUInt] at h
  split at h
  · exact absurd h (by simp)
  · rename_i hcond
    simp only [Option.some.injEq, Prod.mk.injEq] at h
    obtain ⟨hv, hr⟩ := h
    refine ⟨l.takeWhile (fun c => c.isDigit), fun e => hcond (by simp [e]),
      fun c hc => List.mem_takeWhile_imp hc, ?_, hv.symm⟩
    rw [← hr]
    exact (List.takeWhile_append_dropWhile ..).symm

lemma parseInt_inv (l : List Char) (v : ℤ) (r : List Char)
    (h : parseInt l = some (v, r)) : ∃ m, IntToken m v ∧ l = m ++ r := by
  cases l with
  | nil => simp [parseInt] at h
  | cons c rest =>
    simp only [parseInt] at h
    by_cases hc : c = '-'
    · rw [if_pos hc] at h
      cases hu : parseUInt rest with
      | none => rw [hu] at h; exact absurd h (by simp)
      | some p =>
        obtain ⟨n, r2⟩ := p
        rw [hu] at h
        simp only [Option.map_some', Option.some.injEq, Prod.mk.injEq] at h
        obtain ⟨hv, hr⟩ := h
        obtain ⟨d, hne, hd, heq, hn⟩ := parseUInt_inv rest n r2 hu
        subst hc
        refine ⟨'-' :: d, ⟨d, hne, hd, Or.inr ⟨rfl, by rw [← hv, hn]⟩⟩, ?_⟩
        rw [heq, hr, List.cons_append]
    · rw [if_neg hc] at h
      obtain ⟨d, hne, hd, heq, hv⟩ := parseUInt_inv (c :: rest) v r h
      exact ⟨d, ⟨d, hne, hd, Or.inl ⟨rfl, hv⟩⟩, heq⟩

lemma wsOnly_takeWhile (l : List Char) : wsOnly (l.takeWhile isWS) :=
  fun _ hc => List.mem_takeWhile_imp hc

lemma parseLine_sound (l : List Char) (a b : ℤ) (h : parseLine l = some (a, b)) :
    LineShape l a b := by
  simp only [parseLine] at h
  split at h
  · exact absurd h (by simp)
  · rename_i a1 r1 heq1
    split at h
    · rename_i r3 heq2
      split at h
      · exact absurd h (by simp)
      · rename_i b1 r5 heq3
        split at h
        · rename_i heq4
          simp only [Option.some.injEq, Prod.mk.injEq] at h
          obtain ⟨ha, hb⟩ := h
          subst ha
          subst hb
          obtain ⟨m1, tok1, hs1⟩ := parseInt_inv _ _ _ heq1
          obtain ⟨m2, tok2, hs2⟩ := parseInt_inv _ _ _ heq3
          refine ⟨l.takeWhile isWS, m1, r1.takeWhile isWS, r3.takeWhile isWS, m2, r5,
            wsOnly_takeWhile l, wsOnly_takeWhile r1, wsOnly_takeWhile r3,
            List.dropWhile_eq_nil_iff.mp heq4, tok1, tok2, ?_⟩
          have e1 : l = l.takeWhile isWS ++ (m1 ++ r1) := by
            rw [← hs1, List.takeWhile_append_dropWhile]
          have e2 : r1 = r1.takeWhile isWS ++ (',' :: r3) := by
            rw [← heq2, List.takeWhile_append_dropWhile]
          have e3 : r3 = r3.takeWhile isWS ++ (m2 ++ r5) := by
            rw [← hs2, List.takeWhile_append_dropWhile]
          conv_lhs => rw [e1]
          conv_lhs => rw [e2]
          conv_lhs => rw [e3]
          simp [List.append_assoc]
        · exact absurd h (by simp)
    · exact absurd h (by simp)

lemma intToken_head (m : List Char) (v : ℤ) (ht : IntToken m v) :
    ∃ c m2, m = c :: m2 ∧ isWS c = false := by
  obtain ⟨d, hne, hd, hcase⟩ := ht
  rcases hcase with ⟨hm, _⟩ | ⟨hm, _⟩
  · cases d with
    | nil => exact absurd rfl hne
    | cons c d2 => exact ⟨c, d2, hm, digit_not_ws (hd c (by simp))⟩
  · exact ⟨'-', d, hm, by rfl⟩

lemma dropWhile_token_append (m : List Char) (v : ℤ) (r : List Char)
    (ht : IntToken m v) : (m ++ r).dropWhile isWS = m ++ r := by
  obtain ⟨c, m2, hm, hc⟩ := intToken_head m v ht
  subst hm
  rw [List.cons_append]
  exact dropWhile_isWS_cons_of c (m2 ++ r) hc

lemma parseLine_complete (w1 m1 w2 w3 m2 w4 : List Char) (a b : ℤ)
    (hw1 : wsOnly w1) (hw2 : wsOnly w2) (hw3 : wsOnly w3) (hw4 : wsOnly w4)
    (h1 : IntToken m1 a) (h2 : IntToken m2 b) :
    parseLine (w1 ++ m1 ++ w2 ++ ',' :: (w3 ++ m2 ++ w4)) = some (a, b) := by
  have hA : (w1 ++ m1 ++ w2 ++ ',' :: (w3 ++ m2 ++ w4)).dropWhile isWS =
      m1 ++ (w2 ++ ',' :: (w3 ++ m2 ++ w4)) := by
    rw [List.append_assoc, List.append_assoc, dropWhile_ws_append w1 _ hw1]
    exact dropWhile_token_append m1 a _ h1
  have hB : parseInt (m1 ++ (w2 ++ ',' :: (w3 ++ m2 ++ w4))) =
      some (a, w2 ++ ',' :: (w3 ++ m2 ++ w4)) :=
    parseInt_token m1 a _ h1 (headNotDigit_ws_comma w2 hw2 _)
  have hC : (w2 ++ ',' :: (w3 ++ m2 ++ w4)).dropWhile isWS = ',' :: (w3 ++ m2 ++ w4) := by
    rw [dropWhile_ws_append w2 _ hw2]
    exact dropWhile_isWS_cons_of ',' _ (by rfl)
  have hD1 : (w3 ++ m2 ++ w4).dropWhile isWS = m2 ++ w4 := by
    rw [List.append_assoc, dropWhile_ws_append w3 _ hw3]
    exact dropWhile_token_append m2 b w4 h2
  have hD2 : parseInt (m2 ++ w4) = some (b, w4) :=
    parseInt_token m2 b w4 h2 (headNotDigit_of_ws w4 hw4)
  have hE : w4.dropWhile isWS = [] := List.dropWhile_eq_nil_iff.mpr hw4
  simp only [parseLine, hA, hB, hC, hD1, hD2, hE, if_pos]

/-- C5: the line parser is a total function on lines; it returns the pair
of signed integers exactly when the line is an optional-sign integer, a
comma, and an optional-sign integer with surrounding whitespace ignored;
it rejects "abc,123", "12,34,56" and the empty line, and accepts "12,-34"
as (12, -34) and " -1 , 2 " as (-1, 2). -/
theorem C5_parse_spec :
    (∀ l : List Char, ∀ a b : ℤ, parseLine l = some (a, b) ↔ LineShape l a b) ∧
    parse "abc,123" = none ∧
    parse "12,34,56" = none ∧
    parse "" = none ∧
    parse "12,-34" = some (12, -34) ∧
    parse " -1 , 2 " = some (-1, 2) := by
  refine ⟨?_, by rfl, by rfl, by rfl, by rfl, by rfl⟩
  intro l a b
  constructor
  · exact parseLine_sound l a b
  · rintro ⟨w1, m1, w2, w3, m2, w4, hw1, hw2, hw3, hw4, h1, h2, rfl⟩
    exact parseLine_complete w1 m1 w2 w3 m2 w4 a b hw1 hw2 hw3 hw4 h1 h2

/-- Witness for C5: the accepted example " -1 , 2 " indeed has the
documented shape, by the equivalence applied at that concrete line. -/
theorem C5_witness : LineShape (" -1 , 2 ".data) (-1) 2 :=
  (C5_parse_spec.1 (" -1 , 2 ".data) (-1) 2).mp (by rfl)

end Supercap
